import Mathlib

/-!
Verification development for the BBC English fixer
(`_workbench/scripts/bbc_english_fixer.py`).

The script is a line-oriented text filter: a static rule table of
American→British spelling conversions (`CONVERSION_RULES`), a per-line
classifier (`is_code_example_line`, fenced-code-block tracking), a per-line
rewriter (`fix_line`), a per-file driver (`process_file`) and a batch driver
(`main`).  This file is a shallow embedding of that program: Python strings
become Lean `String`s, each regular expression of the script is hand-compiled
to an executable matcher over `List Char`, files become `List String` (the
result of `readlines`, i.e. lines carrying their trailing newline), and the
file-system effects of the drivers are made explicit values.
-/

namespace BbcFixer

/-- Character class of Python regex `\w` (ASCII range, as used by the
script's patterns, which only ever match ASCII words). -/
def isWordChar (c : Char) : Bool := c.isAlphanum || c = '_'

/-- Character class of Python regex `\s`: the six ASCII whitespace
characters. -/
def isPySpace (c : Char) : Bool :=
  c = ' ' || c = '\t' || c = '\n' || c = '\r' || c = Char.ofNat 11 || c = Char.ofNat 12

/-- A maximal run of characters of one class: either a word run (`\w+`) or a
separator run (no word characters).  A Python regex `\bw\b` for a literal
word `w` matches exactly the word chunks equal to `w`. -/
inductive Chunk where
  | word : List Char → Chunk
  | sep : List Char → Chunk
deriving DecidableEq, Repr

def chunkChars : Chunk → List Char
  | .word w => w
  | .sep s => s

def isWordChunk : Chunk → Bool
  | .word _ => true
  | .sep _ => false

/-- Fuelled splitter of a character list into maximal alternating word /
separator runs.  Fuel is the length of the list, so `tokenize` below always
has enough. -/
def tokenizeF : Nat → List Char → List Chunk
  | 0, _ => []
  | _ + 1, [] => []
  | fuel + 1, c :: cs =>
    if isWordChar c then
      Chunk.word (c :: cs.takeWhile isWordChar) :: tokenizeF fuel (cs.dropWhile isWordChar)
    else
      Chunk.sep (c :: cs.takeWhile (fun x => !isWordChar x)) ::
        tokenizeF fuel (cs.dropWhile (fun x => !isWordChar x))

/-- Split a character list into maximal word / separator runs. -/
def tokenize (cs : List Char) : List Chunk := tokenizeF cs.length cs

/-- Concatenate chunks back into a character list. -/
def detok (L : List Chunk) : List Char := L.foldr (fun ch acc => chunkChars ch ++ acc) []

/-- The two shapes of pattern occurring in `CONVERSION_RULES`:
`\bw\b` (a word-bounded literal) and `\bw\b(?!\s*=)` (the `license` rule,
which carries a negative lookahead refusing a following `=` after optional
whitespace). -/
inductive RulePat where
  | word : String → RulePat
  | wordNotBeforeEq : String → RulePat
deriving DecidableEq, Repr

/-- The literal American word of a rule pattern (also the text of
`re.search(pattern, s).group()` at any match of these patterns). -/
def amerWord : RulePat → String
  | .word a => a
  | .wordNotBeforeEq a => a

/-- The negative-lookahead test `(?=\s*=)` at the position just after a
matched word: the following text, after dropping whitespace, starts with
`=`.  (Backtracking of the greedy `\s*` cannot help: every character
skipped must be whitespace and `=` is not, so only the maximal-run reading
matters.) -/
def eqFollows (rest : List Chunk) : Bool :=
  ((detok rest).dropWhile isPySpace).head? == some '='

/-- Whether a rule pattern matches a word chunk `w` whose following text is
`rest`. -/
def matchTok : RulePat → List Chunk → List Char → Bool
  | .word a, _, w => w == a.data
  | .wordNotBeforeEq a, rest, w => w == a.data && !eqFollows rest

/-- Semantics of `re.search(pattern, s)` (as a Boolean) for the rule
patterns, over the chunk decomposition of `s`. -/
def searchChunks (p : RulePat) : List Chunk → Bool
  | [] => false
  | .word w :: rest => matchTok p rest w || searchChunks p rest
  | .sep _ :: rest => searchChunks p rest

/-- Semantics of `re.sub(pattern, brit, s)` for the rule patterns: every
matching word chunk is replaced by the replacement word.  Lookaheads are
evaluated against the original text to the right, exactly as Python's
left-to-right scan does. -/
def subChunks (p : RulePat) (brit : List Char) : List Chunk → List Chunk
  | [] => []
  | .word w :: rest =>
    (if matchTok p rest w then Chunk.word brit else Chunk.word w) :: subChunks p brit rest
  | .sep s :: rest => Chunk.sep s :: subChunks p brit rest

/-- `re.search(american, s)` is truthy. -/
def searchRule (p : RulePat) (s : String) : Bool :=
  searchChunks p (tokenize s.data)

/-- `re.sub(american, british, s)`. -/
def subRule (p : RulePat) (brit : String) (s : String) : String :=
  String.mk (detok (subChunks p brit.data (tokenize s.data)))

/-- The script's `CONVERSION_RULES` table: (american pattern, british
replacement, description), in source order. -/
def CONVERSION_RULES : List (RulePat × String × String) := [
  (.word "authorization", "authorisation", "-ize to -ise"),
  (.word "Authorization", "Authorisation", "-ize to -ise"),
  (.word "unauthorized", "unauthorised", "-ize to -ise"),
  (.word "Unauthorized", "Unauthorised", "-ize to -ise"),
  (.word "organization", "organisation", "-ize to -ise"),
  (.word "Organization", "Organisation", "-ize to -ise"),
  (.word "optimization", "optimisation", "-ize to -ise"),
  (.word "Optimization", "Optimisation", "-ize to -ise"),
  (.word "optimize", "optimise", "-ize to -ise"),
  (.word "Optimize", "Optimise", "-ize to -ise"),
  (.word "optimized", "optimised", "-ize to -ise"),
  (.word "Optimized", "Optimised", "-ize to -ise"),
  (.word "optimizing", "optimising", "-ize to -ise"),
  (.word "Optimizing", "Optimising", "-ize to -ise"),
  (.word "initialize", "initialise", "-ize to -ise"),
  (.word "Initialize", "Initialise", "-ize to -ise"),
  (.word "initialized", "initialised", "-ize to -ise"),
  (.word "Initialized", "Initialised", "-ize to -ise"),
  (.word "initialization", "initialisation", "-ize to -ise"),
  (.word "Initialization", "Initialisation", "-ize to -ise"),
  (.word "centralize", "centralise", "-ize to -ise"),
  (.word "Centralize", "Centralise", "-ize to -ise"),
  (.word "recognize", "recognise", "-ize to -ise"),
  (.word "Recognize", "Recognise", "-ize to -ise"),
  (.word "analyze", "analyse", "-yze to -yse"),
  (.word "Analyze", "Analyse", "-yze to -yse"),
  (.word "analyzed", "analysed", "-yze to -yse"),
  (.word "Analyzed", "Analysed", "-yze to -yse"),
  (.word "analyzing", "analysing", "-yze to -yse"),
  (.word "Analyzing", "Analysing", "-yze to -yse"),
  (.word "color", "colour", "-or to -our"),
  (.word "Color", "Colour", "-or to -our"),
  (.word "honor", "honour", "-or to -our"),
  (.word "Honor", "Honour", "-or to -our"),
  (.word "behavior", "behaviour", "-or to -our"),
  (.word "Behavior", "Behaviour", "-or to -our"),
  (.word "favor", "favour", "-or to -our"),
  (.word "Favor", "Favour", "-or to -our"),
  (.word "center", "centre", "-er to -re"),
  (.word "Center", "Centre", "-er to -re"),
  (.word "meter", "metre", "-er to -re"),
  (.word "Meter", "Metre", "-er to -re"),
  (.word "defense", "defence", "-ense to -ence"),
  (.word "Defense", "Defence", "-ense to -ence"),
  (.word "offense", "offence", "-ense to -ence"),
  (.word "Offense", "Offence", "-ense to -ence"),
  (.wordNotBeforeEq "license", "licence", "-ense to -ence (not in \"license = \" cargo)"),
  (.word "License", "Licence", "-ense to -ence"),
  (.word "dialog", "dialogue", "-og to -ogue"),
  (.word "Dialog", "Dialogue", "-og to -ogue"),
  (.word "catalog", "catalogue", "-og to -ogue"),
  (.word "Catalog", "Catalogue", "-og to -ogue"),
  (.word "traveled", "travelled", "single to double L"),
  (.word "Traveled", "Travelled", "single to double L"),
  (.word "traveling", "travelling", "single to double L"),
  (.word "Traveling", "Travelling", "single to double L"),
  (.word "modeling", "modelling", "single to double L"),
  (.word "Modeling", "Modelling", "single to double L"),
  (.word "pediatric", "paediatric", "ae/oe"),
  (.word "Pediatric", "Paediatric", "ae/oe"),
  (.word "maneuver", "manoeuvre", "ae/oe"),
  (.word "Maneuver", "Manoeuvre", "ae/oe")]

/-- A single-quote character, used in formatted change records. -/
def sq : String := String.singleton (Char.ofNat 39)

/-- The change record the script formats:
`f"{filename}:{line_num}: {description} | '{matched}' → '{british}'"`.
For these patterns the matched group text is always the literal American
word of the rule. -/
def mkChange (filename : String) (line_num : Nat)
    (description matched replacement : String) : String :=
  filename ++ ":" ++ toString line_num ++ ": " ++ description ++ " | " ++
    sq ++ matched ++ sq ++ " → " ++ sq ++ replacement ++ sq

/-- The rule loop of `fix_line`: apply every conversion rule in order to the
comment content; each matching rule substitutes globally and appends one
change record. -/
def fixContent (filename : String) (line_num : Nat) (original_content : String) :
    String × List String :=
  CONVERSION_RULES.foldl
    (fun acc r =>
      if searchRule r.1 acc.1 then
        (subRule r.1 r.2.1 acc.1,
         acc.2 ++ [mkChange filename line_num r.2.2 (amerWord r.1) r.2.1])
      else acc)
    (original_content, [])

/-- The backtick character, built numerically so the source file itself
contains none. -/
def btick : Char := Char.ofNat 96

/-- The three-backtick code-fence marker. -/
def fenceMark : List Char := [btick, btick, btick]

/-- Substring occurrence test (Python's `in` on strings). -/
def hasInfix (pat : List Char) : List Char → Bool
  | [] => pat.isEmpty
  | c :: cs => pat.isPrefixOf (c :: cs) || hasInfix pat cs

/-- The check `"```" in line`. -/
def hasFence (line : String) : Bool := hasInfix fenceMark line.data

/-! Hand-compiled matchers for the `code_patterns` heuristics of
`is_code_example_line`.  Each Python pattern has the form `//.*X`;
`re.search` succeeds iff the line contains `//` somewhere, and `X` matches
starting at some later position on the same line (the `.*` cannot cross a
newline, but `\s` inside `X` can).  The pieces `\s*`, `\s+`, `\w+` are
modelled nondeterministically: a matcher returns the list of possible
remainders after consuming a prefix. -/

/-- Remainders after consuming zero or more characters satisfying `p`
(regex `p*`). -/
def starRem (p : Char → Bool) : List Char → List (List Char)
  | [] => [[]]
  | c :: cs => (c :: cs) :: (if p c then starRem p cs else [])

/-- Remainders after consuming one or more characters satisfying `p`
(regex `p+`). -/
def plusRem (p : Char → Bool) : List Char → List (List Char)
  | [] => []
  | c :: cs => if p c then starRem p cs else []

/-- The tail `\s+\w+\s*=` of the pattern `//.*\blet\s+\w+\s*=`, applied
after the literal `let`. -/
def letTail (s : List Char) : Bool :=
  (((plusRem isPySpace s).flatMap (plusRem isWordChar)).flatMap
    (starRem isPySpace)).any (fun t => t.head? == some '=')

/-- Matcher for `\blet\s+\w+\s*=` at a position (boundary checked by the
caller): literal `let` then `letTail`. -/
def matchLet : List Char → Bool
  | 'l' :: 'e' :: 't' :: rest => letTail rest
  | _ => false

/-- The tail `\s+\w+\s*\(` of the pattern `//.*\bfn\s+\w+\s*\(`. -/
def fnTail (s : List Char) : Bool :=
  (((plusRem isPySpace s).flatMap (plusRem isWordChar)).flatMap
    (starRem isPySpace)).any (fun t => t.head? == some '(')

/-- Matcher for `\bfn\s+\w+\s*\(` at a position. -/
def matchFn : List Char → Bool
  | 'f' :: 'n' :: rest => fnTail rest
  | _ => false

/-- Matcher for `\w+\s*\(` at a position. -/
def matchCall (s : List Char) : Bool :=
  ((plusRem isWordChar s).flatMap (starRem isPySpace)).any
    (fun t => t.head? == some '(')

/-- Matcher for `\w+::\w+` at a position. -/
def matchQual (s : List Char) : Bool :=
  (plusRem isWordChar s).any (fun t =>
    match t with
    | ':' :: ':' :: c :: _ => isWordChar c
    | _ => false)

/-- Matcher for `\.\w+\(` at a position. -/
def matchMember : List Char → Bool
  | '.' :: rest => (plusRem isWordChar rest).any (fun t => t.head? == some '(')
  | _ => false

/-- Matcher for `\s*\|\s*\w+\s*\|` at a position. -/
def matchClosure (s : List Char) : Bool :=
  (starRem isPySpace s).any (fun t =>
    match t with
    | '|' :: rest =>
      (((starRem isPySpace rest).flatMap (plusRem isWordChar)).flatMap
        (starRem isPySpace)).any (fun u => u.head? == some '|')
    | _ => false)

/-- Try matcher `m` at every position of the list, remembering the previous
character for `\b` (`needB`), and refusing to advance the `.*` part across a
newline. -/
def srch (needB : Bool) (m : List Char → Bool) : Char → List Char → Bool
  | _, [] => false
  | prev, c :: cs =>
    ((!needB || !isWordChar prev) && m (c :: cs)) ||
      (if c = '\n' then false else srch needB m c cs)

/-- Search for `//` anywhere in the line, then for a match of `m` at some
position after it (the `//.*X` shape shared by all six heuristics). -/
def searchPat (needB : Bool) (m : List Char → Bool) : List Char → Bool
  | [] => false
  | c :: cs =>
    (c = '/' && (match cs with
      | c2 :: cs2 => c2 = '/' && srch needB m '/' cs2
      | [] => false)) || searchPat needB m cs

/-- The script's `is_code_example_line`: fence markers, then the six
looks-like-code regex heuristics. -/
def is_code_example_line (line : String) : Bool :=
  hasFence line ||
  searchPat true matchLet line.data ||
  searchPat true matchFn line.data ||
  searchPat false matchCall line.data ||
  searchPat false matchQual line.data ||
  searchPat false matchMember line.data ||
  searchPat false matchClosure line.data

/-- Semantics of `re.match(r"(^\s*//[/!]?\s*)(.*)$", line)` on a line as
produced by `readlines` (at most one newline, at the end): leading
whitespace, the `//` marker, an optional third `/` or `!`, further greedy
whitespace — all captured as the prefix — and the rest of the line without
its trailing newline as the content.  (`$` permits exactly a final
newline after the `.*` group; greedy runs cannot overshoot because `/`
and the first content character are not whitespace.) -/
def commentMatch (line : String) : Option (String × String) :=
  let cs := line.data
  let ws1 := cs.takeWhile isPySpace
  match cs.dropWhile isPySpace with
  | '/' :: '/' :: r2 =>
    let opt : List Char × List Char :=
      match r2 with
      | c :: rest => if c = '/' || c = '!' then ([c], rest) else ([], r2)
      | [] => ([], [])
    let ws2 := opt.2.takeWhile isPySpace
    let r4 := opt.2.dropWhile isPySpace
    let content := if r4.getLast? = some '\n' then r4.dropLast else r4
    if content.any (fun c => c = '\n') then none
    else some (String.mk (ws1 ++ '/' :: '/' :: (opt.1 ++ ws2)), String.mk content)
  | _ => none

/-- The script's `fix_line`: fence lines flip the code-block state and pass
through; lines inside a block or matching a code heuristic pass through;
comment lines have the rule table applied to their content, and when the
content changed the rewritten line is prefix ++ content ++ newline. -/
def fix_line (line : String) (line_num : Nat) (filename : String)
    (dry_run : Bool) (in_code_block : Bool) : String × List String × Bool :=
  if hasFence line then (line, [], !in_code_block)
  else if in_code_block || is_code_example_line line then (line, [], in_code_block)
  else
    match commentMatch line with
    | some (pre, content) =>
      let res := fixContent filename line_num content
      if res.1 ≠ content then (pre ++ res.1 ++ "\n", res.2, in_code_block)
      else (line, res.2, in_code_block)
    | none => (line, [], in_code_block)

/-- The line loop of `process_file`: 1-based line numbers, code-block state
threaded through; returns (new lines, all change records, final state). -/
def processLinesAux (filename : String) (dry_run : Bool) :
    Nat → Bool → List String → List String × List String × Bool
  | _, b, [] => ([], [], b)
  | n, b, l :: ls =>
    let r := fix_line l n filename dry_run b
    let rest := processLinesAux filename dry_run (n + 1) r.2.2 ls
    (r.1 :: rest.1, r.2.1 ++ rest.2.1, rest.2.2)

/-- Process all lines of a file, starting outside any code block. -/
def process_lines (filename : String) (dry_run : Bool) (lines : List String) :
    List String × List String × Bool :=
  processLinesAux filename dry_run 1 false lines

/-- Outcome of the write-back attempt in apply mode.  CPython's
`open(filepath, "w")` truncates the file before `writelines` runs, so a
failure is either at `open` (disk untouched) or afterwards (`midFail k`:
the exception is raised after `k` lines were flushed; `k = 0` leaves the
file truncated empty). -/
inductive WriteOutcome where
  | ok
  | openFail
  | midFail (k : Nat)
deriving DecidableEq, Repr

/-- The write-back guard of `process_file`:
`if not dry_run and all_changes`. -/
def writeAttempted (dry_run : Bool) (all_changes : List String) : Bool :=
  !dry_run && !all_changes.isEmpty

/-- The return value of `process_file`: `(len(all_changes), all_changes)`
normally, `(0, [])` when the write-back raised (the `except` branch). -/
def process_file (filename : String) (lines : List String) (dry_run : Bool)
    (wr : WriteOutcome) : Nat × List String :=
  if writeAttempted dry_run (process_lines filename dry_run lines).2.1 && wr != .ok
  then (0, [])
  else ((process_lines filename dry_run lines).2.1.length,
        (process_lines filename dry_run lines).2.1)

/-- On-disk content of the file after `process_file`, per the write model
above. -/
def diskAfter (filename : String) (lines : List String) (dry_run : Bool)
    (wr : WriteOutcome) : List String :=
  if writeAttempted dry_run (process_lines filename dry_run lines).2.1 then
    match wr with
    | .ok => (process_lines filename dry_run lines).1
    | .openFail => lines
    | .midFail k => (process_lines filename dry_run lines).1.take k
  else lines

/-- Whether `process_file` printed `ERROR writing ...` on stderr. -/
def writeErrorReported (filename : String) (lines : List String)
    (dry_run : Bool) (wr : WriteOutcome) : Bool :=
  writeAttempted dry_run (process_lines filename dry_run lines).2.1 && wr != .ok

/-- `pathlib.PurePath.suffix` of the final path component: the part from
the last dot on, empty when there is no dot, when the dot is the first
character of the component (hidden file), or when it is the last
character. -/
def pySuffix (name : String) : String :=
  let base := ((name.data.reverse.takeWhile (fun c => c ≠ '/')).reverse)
  let ext := base.reverse.takeWhile (fun c => c ≠ '.')
  if ext.length = base.length then ""
  else if ext.length = 0 then ""
  else if ext.length = base.length - 1 then ""
  else String.mk ('.' :: ext.reverse)

/-- Python `str.endswith` (used to model `rglob("*.rs")`, whose pattern
matches exactly the file names ending in `.rs`). -/
def strEndsWith (s suffix_ : String) : Bool := suffix_.data.isSuffixOf s.data

/-- The three shapes the input path can take in `main`: an existing regular
file, an existing directory (given with the recursively discovered files it
contains, each a relative name with its `readlines` content), or neither. -/
inductive PathInput where
  | file (name : String) (lines : List String)
  | dir (entries : List (String × List String))
  | neither
deriving DecidableEq

/-- Stable insertion into a list sorted by file name. -/
def insertByName (x : String × List String) :
    List (String × List String) → List (String × List String)
  | [] => [x]
  | y :: ys => if x.1 ≤ y.1 then x :: y :: ys else y :: insertByName x ys

/-- `sorted(rust_files)`: sort the discovered files by name. -/
def sortByName (l : List (String × List String)) : List (String × List String) :=
  l.foldr insertByName []

/-- The file-collection step of `main`: a single file is taken iff its
suffix is `.rs`; a directory contributes its `*.rs` files; anything else is
the fatal usage error (`none`). -/
def collectRustFiles : PathInput → Option (List (String × List String))
  | .file n ls => some (if pySuffix n = ".rs" then [(n, ls)] else [])
  | .dir es => some (sortByName (es.filter (fun e => strEndsWith e.1 ".rs")))
  | .neither => none

/-- Observable outcome of one invocation of `main`. -/
structure RunResult where
  exitCode : Nat
  totalChanges : Nat
  filesProcessed : Nat
  filesWithChanges : Nat
  usageError : Bool
  reads : List String
  writesAttempted : List String
deriving DecidableEq, Repr

/-- The script's `main`: collect the `.rs` files (exiting 1 with a usage
error when the path is neither file nor directory, before touching any
file), run `process_file` on each in sorted order, and exit 0 iff the
summary total of changes is zero.  `wr` gives the write outcome per file
name (only consulted in apply mode for files with changes). -/
def main_run (p : PathInput) (applyFlag : Bool) (wr : String → WriteOutcome) :
    RunResult :=
  match collectRustFiles p with
  | none =>
    { exitCode := 1, totalChanges := 0, filesProcessed := 0,
      filesWithChanges := 0, usageError := true, reads := [], writesAttempted := [] }
  | some files =>
    let dry_run := !applyFlag
    let per := files.map (fun f =>
      let chs := (process_lines f.1 dry_run f.2).2.1
      (f.1, (process_file f.1 f.2 dry_run (wr f.1)).1, writeAttempted dry_run chs))
    let total := (per.map (fun x => x.2.1)).sum
    { exitCode := if total = 0 then 0 else 1
      totalChanges := total
      filesProcessed := files.length
      filesWithChanges := per.countP (fun x => x.2.1 != 0)
      usageError := false
      reads := files.map (fun f => f.1)
      writesAttempted := (per.filter (fun x => x.2.2)).map (fun x => x.1) }

/-! Well-formedness of chunk decompositions, and the invariant used to prove
that one pass of the rule table leaves nothing for a second pass to match. -/

/-- A chunk is well formed when it is a nonempty run of characters of its
declared class. -/
def ChunkOK : Chunk → Prop
  | .word w => w ≠ [] ∧ ∀ c ∈ w, isWordChar c = true
  | .sep s => s ≠ [] ∧ ∀ c ∈ s, isWordChar c = false

/-- Kind sequence of a chunk list. -/
def kinds (L : List Chunk) : List Bool := L.map isWordChunk

/-- A chunk list is well formed when every chunk is and kinds alternate
(no two adjacent chunks of the same class), i.e. it is the image of
`tokenize`. -/
def WFc (L : List Chunk) : Prop :=
  (∀ ch ∈ L, ChunkOK ch) ∧ List.Chain' (fun a b => a ≠ b) (kinds L)

/-- Two chunks of the same kind, both well formed when words, and
character-identical when separators.  Word-for-word substitution produces
lists related pointwise by this. -/
inductive SameShape : Chunk → Chunk → Prop
  | sep (s : List Char) : SameShape (.sep s) (.sep s)
  | word {w w' : List Char} : w ≠ [] → (∀ c ∈ w, isWordChar c = true) →
      w' ≠ [] → (∀ c ∈ w', isWordChar c = true) → SameShape (.word w) (.word w')

/-- Relation between the original chunk list and the list obtained after
applying the rules in `applied` (in order): separators are untouched; a
word chunk is either untouched — and then it matched none of the applied
rules, with lookaheads evaluated against the original right context — or
it has been replaced by the British word of one applied rule. -/
inductive Tracks (applied : List (RulePat × String × String)) :
    List Chunk → List Chunk → Prop
  | nil : Tracks applied [] []
  | sep (s : List Char) {r r' : List Chunk} :
      Tracks applied r r' → Tracks applied (.sep s :: r) (.sep s :: r')
  | keep {w : List Char} {r r' : List Chunk}
      (hne : w ≠ []) (hall : ∀ c ∈ w, isWordChar c = true)
      (hno : ∀ ru ∈ applied, matchTok ru.1 r w = false) :
      Tracks applied r r' → Tracks applied (.word w :: r) (.word w :: r')
  | repl {w : List Char} {r r' : List Chunk}
      (ru : RulePat × String × String) (hru : ru ∈ applied)
      (hne : w ≠ []) (hall : ∀ c ∈ w, isWordChar c = true) :
      Tracks applied r r' → Tracks applied (.word w :: r) (.word ru.2.1.data :: r')

/-! Concrete inputs used by the scenario claims and witnesses. -/

/-- A line consisting exactly of the fence marker. -/
def fenceLine : String := String.mk fenceMark

/-- The single line of the exit-code scenario:
`// Let's optimize the color centering`. -/
def c1Line : String := "// Let" ++ sq ++ "s optimize the color centering"

/-- The dry run of the exit-code scenario on a directory with one `.rs`
file holding `c1Line`. -/
def c1Run : RunResult :=
  main_run (.dir [("a.rs", [c1Line])]) false (fun _ => .ok)

/-- The metadata-looking comment line of the licence scenario. -/
def c4Line : String := "/// license = \"MIT\""

/-- A one-line file whose comment gets one change. -/
def c7Lines : List String := ["// color\n"]

/-- A comment line that also matches the let-assignment code heuristic. -/
def c8Line : String := "// let c = color"

/-! Theorems.  First, structural facts about `fix_line`. -/

set_option maxRecDepth 100000

/-- A fence-marker line is passed through unchanged; only the state flips. -/
theorem fix_line_fence {line : String} (h : hasFence line = true)
    (line_num : Nat) (filename : String) (dry_run b : Bool) :
    fix_line line line_num filename dry_run b = (line, [], !b) := by
  simp [fix_line, h]

/-- Inside a code block, every non-fence line is passed through unchanged. -/
theorem fix_line_inBlock {line : String} (h : hasFence line = false)
    (line_num : Nat) (filename : String) (dry_run : Bool) :
    fix_line line line_num filename dry_run true = (line, [], true) := by
  simp [fix_line, h]

/-- A line matching a code heuristic (other than the fence) is passed
through unchanged. -/
theorem fix_line_code {line : String} (h : is_code_example_line line = true)
    (hf : hasFence line = false) (line_num : Nat) (filename : String)
    (dry_run b : Bool) :
    fix_line line line_num filename dry_run b = (line, [], b) := by
  simp [fix_line, h, hf]

/-- The code-block state coming out of `fix_line` is flipped exactly by
fence lines. -/
theorem fix_line_state (line : String) (line_num : Nat) (filename : String)
    (dry_run b : Bool) :
    (fix_line line line_num filename dry_run b).2.2 =
      if hasFence line then !b else b := by
  unfold fix_line
  split
  · rfl
  · split
    · rfl
    · split
      · dsimp only
        split <;> rfl
      · rfl

/-- The state after a list of lines is the initial state flipped once per
fence line. -/
theorem processLinesAux_state (filename : String) (dry_run : Bool) :
    ∀ (ls : List String) (n : Nat) (b : Bool),
      (processLinesAux filename dry_run n b ls).2.2 =
        if ls.countP (fun l => hasFence l) % 2 = 1 then !b else b := by
  intro ls
  induction ls with
  | nil => intro n b; simp [processLinesAux]
  | cons l ls ih =>
    intro n b
    simp only [processLinesAux]
    rw [ih, fix_line_state, List.countP_cons]
    cases hf : hasFence l with
    | true =>
      simp only [if_true]
      by_cases hp : ls.countP (fun l => hasFence l) % 2 = 1
      · rw [if_pos hp, if_neg (by omega), Bool.not_not]
      · rw [if_neg hp, if_pos (by omega)]
    | false => simp

/-- `processLinesAux` over an appended list splits into the two runs, the
second starting from the first run's final state. -/
theorem processLinesAux_append (filename : String) (dry_run : Bool) :
    ∀ (l1 l2 : List String) (n : Nat) (b : Bool),
      processLinesAux filename dry_run n b (l1 ++ l2) =
        ((processLinesAux filename dry_run n b l1).1 ++
           (processLinesAux filename dry_run (n + l1.length)
             (processLinesAux filename dry_run n b l1).2.2 l2).1,
         (processLinesAux filename dry_run n b l1).2.1 ++
           (processLinesAux filename dry_run (n + l1.length)
             (processLinesAux filename dry_run n b l1).2.2 l2).2.1,
         (processLinesAux filename dry_run (n + l1.length)
           (processLinesAux filename dry_run n b l1).2.2 l2).2.2) := by
  intro l1
  induction l1 with
  | nil => intro l2 n b; simp [processLinesAux]
  | cons l l1 ih =>
    intro l2 n b
    simp only [List.cons_append, processLinesAux, List.append_eq, ih,
      List.length_cons, List.append_assoc]
    rw [show n + (l1.length + 1) = n + 1 + l1.length by omega]

/-- The rewriter returns one output line per input line. -/
theorem processLinesAux_length (filename : String) (dry_run : Bool) :
    ∀ (ls : List String) (n : Nat) (b : Bool),
      (processLinesAux filename dry_run n b ls).1.length = ls.length := by
  intro ls
  induction ls with
  | nil => intro n b; rfl
  | cons l ls ih => intro n b; simp [processLinesAux, ih]

/-- C2: a fence-marker line is passed through unmodified with no change
records, only flipping the code-block state; any non-fence line processed
while the state is set (in particular, any line lying inside a fenced
region, i.e. preceded by an odd number of fence lines) is returned
byte-identical with no change records, whatever its spelling content. -/
theorem c2_fence_block_safety (filename : String) (line_num : Nat)
    (dry_run b : Bool) (line : String) (lines : List String) (i : Nat) :
    (hasFence line = true → fix_line line line_num filename dry_run b = (line, [], !b))
    ∧ (hasFence line = false →
        fix_line line line_num filename dry_run true = (line, [], true))
    ∧ (∀ hi : i < lines.length,
        (lines.take i).countP (fun l => hasFence l) % 2 = 1 →
        hasFence lines[i] = false →
        (process_lines filename dry_run lines).1[i]? = some lines[i]) := by
  refine ⟨fun h => fix_line_fence h .., fun h => fix_line_inBlock h .., ?_⟩
  intro hi hodd hfi
  have hsplit := processLinesAux_append filename dry_run (lines.take i)
    (lines.drop i) 1 false
  rw [List.take_append_drop] at hsplit
  have hdrop : lines.drop i = lines[i] :: lines.drop (i + 1) :=
    List.drop_eq_getElem_cons hi
  have hstate : (processLinesAux filename dry_run 1 false (lines.take i)).2.2 = true := by
    rw [processLinesAux_state, if_pos hodd, Bool.not_false]
  unfold process_lines
  rw [hsplit]
  have hlen : (processLinesAux filename dry_run 1 false (lines.take i)).1.length = i := by
    rw [processLinesAux_length]
    exact List.length_take_of_le (Nat.le_of_lt hi)
  rw [List.getElem?_append_right (by omega)]
  rw [hlen, Nat.sub_self, hdrop, hstate]
  simp only [processLinesAux]
  rw [fix_line_inBlock hfi]
  simp

/-- Witness for C2 at concrete inputs: a fence line flips the state and is
unchanged; a colour-bearing comment line inside an open fence is returned
byte-identical; positionally, the line between the two fences of a
three-line file is returned byte-identical. -/
theorem c2_fence_block_safety_witness :
    fix_line fenceLine 1 "f" true false = (fenceLine, [], true)
    ∧ fix_line "// color" 1 "f" true true = ("// color", [], true)
    ∧ (process_lines "f" true [fenceLine, "// color", fenceLine]).1[1]? =
        some "// color" := by
  refine ⟨?_, ?_, ?_⟩
  · exact (c2_fence_block_safety "f" 1 true false fenceLine [] 0).1 (by decide)
  · exact (c2_fence_block_safety "f" 1 true true "// color" [] 0).2.1 (by decide)
  · exact (c2_fence_block_safety "f" 1 true false "x"
      [fenceLine, "// color", fenceLine] 1).2.2 (by decide) (by decide) (by decide)

/-- C8: every line matching a looks-like-code heuristic is returned by
`fix_line` unchanged with no change records, even when it starts with a
comment marker and contains an American spelling. -/
theorem c8_code_heuristic (filename : String) (line_num : Nat)
    (dry_run b : Bool) (line : String)
    (h : is_code_example_line line = true) :
    (fix_line line line_num filename dry_run b).1 = line
    ∧ (fix_line line line_num filename dry_run b).2.1 = [] := by
  cases hf : hasFence line with
  | true => rw [fix_line_fence hf]; exact ⟨rfl, rfl⟩
  | false => rw [fix_line_code h hf]; exact ⟨rfl, rfl⟩

/-- Witness for C8: `// let c = color` matches the let-assignment heuristic
and is left alone although it is a comment containing `color`. -/
theorem c8_code_heuristic_witness :
    is_code_example_line c8Line = true
    ∧ (fix_line c8Line 1 "f" true false).1 = c8Line
    ∧ (fix_line c8Line 1 "f" true false).2.1 = [] := by
  refine ⟨by decide, ?_⟩
  exact c8_code_heuristic "f" 1 true false c8Line (by decide)

/-- C9: on a comment line whose content is changed by at least one rule,
`fix_line` returns the captured prefix, the rewritten content, and an
unconditionally appended newline character. -/
theorem c9_newline_append (filename : String) (line_num : Nat)
    (dry_run : Bool) (line pre content : String)
    (hf : hasFence line = false)
    (hc : is_code_example_line line = false)
    (hm : commentMatch line = some (pre, content))
    (hne : (fixContent filename line_num content).1 ≠ content) :
    fix_line line line_num filename dry_run false =
      (pre ++ (fixContent filename line_num content).1 ++ "\n",
       (fixContent filename line_num content).2, false) := by
  unfold fix_line
  rw [hf, hm]
  simp [hc, hne]

/-- Witness for C9: the final line `// color` has no trailing newline, and
its rewritten form `// colour\n` gains one. -/
theorem c9_newline_append_witness :
    ("// color" : String).data.getLast? ≠ some '\n'
    ∧ (fix_line "// color" 1 "f" true false).1 = "// colour\n"
    ∧ ((fix_line "// color" 1 "f" true false).1).data.getLast? = some '\n' := by
  have h := c9_newline_append "f" 1 true "// color" "// " "color"
    (by decide) (by decide) (by decide) (by decide)
  refine ⟨by decide, ?_, ?_⟩ <;> rw [h] <;> decide

/-- C5: in dry-run mode `process_file` never writes the file, whatever the
number of changes; in apply mode the write-back happens exactly when at
least one change record was produced. -/
theorem c5_write_discipline (filename : String) (lines : List String)
    (wr : WriteOutcome) :
    diskAfter filename lines true wr = lines
    ∧ writeAttempted true (process_lines filename true lines).2.1 = false
    ∧ (writeAttempted false (process_lines filename false lines).2.1 = true ↔
        (process_lines filename false lines).2.1 ≠ []) := by
  refine ⟨?_, rfl, ?_⟩
  · simp [diskAfter, writeAttempted]
  · simp [writeAttempted, List.isEmpty_iff]

/-- Witness for C5: with one colour change the apply-mode write-back is
attempted; in dry-run mode the disk stays as it was even under a failing
write outcome. -/
theorem c5_write_discipline_witness :
    writeAttempted false (process_lines "f" false ["// color"]).2.1 = true
    ∧ diskAfter "g" ["x"] true (.midFail 0) = ["x"] := by
  exact ⟨(c5_write_discipline "f" ["// color"] .ok).2.2.mpr (by decide),
    (c5_write_discipline "g" ["x"] (.midFail 0)).1⟩

/-- The only exit codes `main` produces are 0 and 1. -/
theorem main_run_exit01 (p : PathInput) (applyFlag : Bool)
    (wr : String → WriteOutcome) :
    (main_run p applyFlag wr).exitCode = 0 ∨
      (main_run p applyFlag wr).exitCode = 1 := by
  have hgen : ∀ t : Nat, (if t = 0 then (0 : Nat) else 1) = 0 ∨
      (if t = 0 then (0 : Nat) else 1) = 1 := by
    intro t
    split
    · exact Or.inl rfl
    · exact Or.inr rfl
  cases p with
  | neither => exact Or.inr rfl
  | file n ls => exact hgen _
  | dir es => exact hgen _

/-- C6: the exit status is 0 exactly when the run summary counts zero
changes (in dry-run as well as apply mode), and an input path that is
neither a file nor a directory causes an immediate usage-error exit with
status 1 before any file is read or written. -/
theorem c6_exit_codes (p : PathInput) (applyFlag : Bool)
    (wr : String → WriteOutcome) :
    (p = .neither → main_run p applyFlag wr =
      { exitCode := 1, totalChanges := 0, filesProcessed := 0,
        filesWithChanges := 0, usageError := true, reads := [],
        writesAttempted := [] })
    ∧ (p ≠ .neither →
        ((main_run p applyFlag wr).exitCode = 0 ↔
          (main_run p applyFlag wr).totalChanges = 0))
    ∧ ((main_run p applyFlag wr).exitCode = 0 ∨
        (main_run p applyFlag wr).exitCode = 1) := by
  cases p with
  | neither => exact ⟨fun _ => rfl, fun h => absurd rfl h, main_run_exit01 _ _ _⟩
  | file n ls =>
    refine ⟨fun h => PathInput.noConfusion h, fun _ => ?_,
      main_run_exit01 _ _ _⟩
    simp only [main_run, collectRustFiles]
    split
    · simp_all
    · simp_all
  | dir es =>
    refine ⟨fun h => PathInput.noConfusion h, fun _ => ?_,
      main_run_exit01 _ _ _⟩
    simp only [main_run, collectRustFiles]
    split
    · simp_all
    · simp_all

/-- Witness for C6: the usage-error outcome at `neither`, and exit 0 with
zero changes on an empty directory. -/
theorem c6_exit_codes_witness :
    main_run .neither false (fun _ => .ok) =
      { exitCode := 1, totalChanges := 0, filesProcessed := 0,
        filesWithChanges := 0, usageError := true, reads := [],
        writesAttempted := [] }
    ∧ (main_run (.dir []) false (fun _ => .ok)).totalChanges = 0 := by
  refine ⟨(c6_exit_codes .neither false _).1 rfl, ?_⟩
  exact ((c6_exit_codes (.dir []) false (fun _ => .ok)).2.1 (by simp)).mp rfl

/-- C10: an existing regular file whose name does not end in `.rs` raises
no usage error; zero files are processed, zero changes reported, and the
exit status is 0. -/
theorem c10_non_rs_file (name : String) (lines : List String)
    (applyFlag : Bool) (wr : String → WriteOutcome)
    (h : pySuffix name ≠ ".rs") :
    main_run (.file name lines) applyFlag wr =
      { exitCode := 0, totalChanges := 0, filesProcessed := 0,
        filesWithChanges := 0, usageError := false, reads := [],
        writesAttempted := [] } := by
  simp [main_run, collectRustFiles, h]

/-- Witness for C10: a `README.md` file input exits 0 having processed
nothing. -/
theorem c10_non_rs_file_witness :
    main_run (.file "README.md" ["// color"]) false (fun _ => .ok) =
      { exitCode := 0, totalChanges := 0, filesProcessed := 0,
        filesWithChanges := 0, usageError := false, reads := [],
        writesAttempted := [] } :=
  c10_non_rs_file "README.md" ["// color"] false (fun _ => .ok) (by decide)

/-- C1 counterexample: on a directory holding one `.rs` file whose content
is the single line `// Let's optimize the color centering`, the dry run
reports 2 changes, not the 3 the claim states — `centering` is not matched
by the word-bounded `center` pattern. -/
theorem c1_counterexample : c1Run.totalChanges = 2 ∧ c1Run.totalChanges ≠ 3 := by
  constructor <;> decide

/-- C1 amended: the same dry run reports exactly 2 changes
(optimize→optimise and color→colour) and exits with status 1. -/
theorem c1_two_changes_exit_one :
    c1Run.totalChanges = 2 ∧ c1Run.exitCode = 1 := by
  constructor <;> decide

/-- C4: the `license = "MIT"`-style metadata line does not trigger the
license→licence rule — the negative lookahead sees the following `=` — and
the file is reported with 0 changes. -/
theorem c4_license_lookahead :
    searchRule (RulePat.wordNotBeforeEq "license") "license = \"MIT\"" = false
    ∧ fixContent "a.rs" 1 "license = \"MIT\"" = ("license = \"MIT\"", [])
    ∧ process_file "a.rs" [c4Line] true .ok = (0, []) := by
  refine ⟨by decide, by decide, by decide⟩

/-- Inserting one file into the sorted list grows it by one. -/
theorem insertByName_length (x : String × List String) :
    ∀ l, (insertByName x l).length = l.length + 1 := by
  intro l
  induction l with
  | nil => rfl
  | cons y ys ih =>
    unfold insertByName
    split
    · rfl
    · simp [ih]

/-- Sorting the discovered files keeps all of them. -/
theorem sortByName_length :
    ∀ l, (sortByName l).length = l.length := by
  intro l
  induction l with
  | nil => rfl
  | cons y ys ih =>
    show (insertByName y (sortByName ys)).length = ys.length + 1
    rw [insertByName_length, ih]

/-- C7 counterexample: in apply mode, a write failure raised after the file
was opened (mode `w` truncates before writing) does not leave the on-disk
content as it was: with `midFail 0` the one-line file ends up empty, even
though the failure is reported and counted as zero changes. -/
theorem c7_counterexample :
    diskAfter "a.rs" c7Lines false (.midFail 0) = []
    ∧ diskAfter "a.rs" c7Lines false (.midFail 0) ≠ c7Lines
    ∧ writeErrorReported "a.rs" c7Lines false (.midFail 0) = true
    ∧ process_file "a.rs" c7Lines false (.midFail 0) = (0, []) := by
  refine ⟨by decide, by decide, by decide, by decide⟩

/-- C7 amended: a write failure is reported on the error stream, the file
contributes zero changes to the run summary, and the batch goes on to
process every remaining matched file; the on-disk content is guaranteed
unchanged only when the failure occurs at `open` — a later failure can
leave a truncated partial file, since opening in write mode truncates. -/
theorem c7_write_failure (filename : String) (lines : List String)
    (wr : WriteOutcome) (entries : List (String × List String))
    (wrf : String → WriteOutcome) :
    (wr ≠ .ok → process_file filename lines false wr = (0, []))
    ∧ (wr ≠ .ok →
        writeAttempted false (process_lines filename false lines).2.1 = true →
        writeErrorReported filename lines false wr = true)
    ∧ diskAfter filename lines false .openFail = lines
    ∧ (main_run (.dir entries) true wrf).filesProcessed =
        (entries.filter (fun e => strEndsWith e.1 ".rs")).length
    ∧ (main_run (.dir entries) true wrf).reads =
        (sortByName (entries.filter (fun e => strEndsWith e.1 ".rs"))).map
          (fun f => f.1) := by
  refine ⟨?_, ?_, ?_, ?_, rfl⟩
  · intro hwr
    unfold process_file
    have hne : (wr != WriteOutcome.ok) = true := bne_iff_ne.mpr hwr
    rw [hne, Bool.and_true]
    cases hatt : writeAttempted false (process_lines filename false lines).2.1 with
    | true => rw [if_pos rfl]
    | false =>
      rw [if_neg (by simp)]
      have hch : (process_lines filename false lines).2.1 = [] := by
        have h2 := hatt
        unfold writeAttempted at h2
        simpa [List.isEmpty_iff] using h2
      rw [hch]
      rfl
  · intro hwr hatt
    unfold writeErrorReported
    rw [hatt, bne_iff_ne.mpr hwr]
    rfl
  · unfold diskAfter
    split
    · rfl
    · rfl
  · show (sortByName (entries.filter (fun e => strEndsWith e.1 ".rs"))).length = _
    exact sortByName_length _

/-- Witness for C7's amended statement at concrete inputs: a failure at
`open` leaves disk and report as claimed, and a mid-write failure is
reported. -/
theorem c7_write_failure_witness :
    process_file "a.rs" c7Lines false .openFail = (0, [])
    ∧ diskAfter "a.rs" c7Lines false .openFail = c7Lines
    ∧ writeErrorReported "a.rs" c7Lines false (.midFail 1) = true := by
  refine ⟨(c7_write_failure "a.rs" c7Lines .openFail [] (fun _ => .ok)).1
      (by decide),
    (c7_write_failure "a.rs" c7Lines .openFail [] (fun _ => .ok)).2.2.1,
    (c7_write_failure "a.rs" c7Lines (.midFail 1) [] (fun _ => .ok)).2.1
      (by decide) (by decide)⟩

/-! Development for C3 (idempotence): the chunk decomposition is a faithful
normal form for the word-bounded patterns, and one pass of the rule table
leaves no word any rule can still match. -/

theorem length_dropWhile_le' (p : Char → Bool) :
    ∀ l : List Char, (l.dropWhile p).length ≤ l.length := by
  intro l
  induction l with
  | nil => exact Nat.le_refl 0
  | cons c cs ih =>
    rw [List.dropWhile_cons]
    split
    · exact Nat.le_succ_of_le ih
    · exact Nat.le_refl _

theorem takeWhile_append_of_all {p : Char → Bool} :
    ∀ {w t : List Char}, (∀ c ∈ w, p c = true) →
      (w ++ t).takeWhile p = w ++ t.takeWhile p := by
  intro w
  induction w with
  | nil => intro t _; rfl
  | cons c w ih =>
    intro t h
    rw [List.cons_append, List.takeWhile_cons_of_pos (h c (List.mem_cons_self c _)),
      ih (fun c hc => h c (List.mem_cons_of_mem _ hc)), List.cons_append]

theorem dropWhile_append_of_all {p : Char → Bool} :
    ∀ {w t : List Char}, (∀ c ∈ w, p c = true) →
      (w ++ t).dropWhile p = t.dropWhile p := by
  intro w
  induction w with
  | nil => intro t _; rfl
  | cons c w ih =>
    intro t h
    rw [List.cons_append, List.dropWhile_cons_of_pos (h c (List.mem_cons_self c _)),
      ih (fun c hc => h c (List.mem_cons_of_mem _ hc))]

theorem dropWhile_append_of_ne {p : Char → Bool} :
    ∀ {s x : List Char}, s.dropWhile p ≠ [] →
      (s ++ x).dropWhile p = s.dropWhile p ++ x := by
  intro s
  induction s with
  | nil => intro x h; exact absurd rfl h
  | cons c s ih =>
    intro x h
    by_cases hc : p c
    · rw [List.cons_append, List.dropWhile_cons_of_pos hc,
        List.dropWhile_cons_of_pos hc]
      exact ih (by rwa [List.dropWhile_cons_of_pos hc] at h)
    · rw [List.cons_append, List.dropWhile_cons_of_neg hc,
        List.dropWhile_cons_of_neg hc, List.cons_append]

theorem tokenizeF_eq : ∀ (f1 f2 : Nat) (cs : List Char),
    cs.length ≤ f1 → cs.length ≤ f2 → tokenizeF f1 cs = tokenizeF f2 cs := by
  intro f1
  induction f1 with
  | zero =>
    intro f2 cs h1 _
    rw [List.length_eq_zero.mp (Nat.le_zero.mp h1)]
    cases f2 <;> rfl
  | succ n ih =>
    intro f2 cs h1 h2
    cases cs with
    | nil => cases f2 <;> rfl
    | cons c cs' =>
      cases f2 with
      | zero => exact absurd h2 (by simp)
      | succ m =>
        simp only [tokenizeF]
        have hd1 : (cs'.dropWhile isWordChar).length ≤ n :=
          Nat.le_trans (length_dropWhile_le' _ _) (Nat.le_of_succ_le_succ h1)
        have hd2 : (cs'.dropWhile isWordChar).length ≤ m :=
          Nat.le_trans (length_dropWhile_le' _ _) (Nat.le_of_succ_le_succ h2)
        have hs1 : (cs'.dropWhile (fun x => !isWordChar x)).length ≤ n :=
          Nat.le_trans (length_dropWhile_le' _ _) (Nat.le_of_succ_le_succ h1)
        have hs2 : (cs'.dropWhile (fun x => !isWordChar x)).length ≤ m :=
          Nat.le_trans (length_dropWhile_le' _ _) (Nat.le_of_succ_le_succ h2)
        rw [ih m _ hd1 hd2, ih m _ hs1 hs2]

theorem tokenize_cons_word {c : Char} (hw : isWordChar c = true) (cs : List Char) :
    tokenize (c :: cs) =
      Chunk.word (c :: cs.takeWhile isWordChar) ::
        tokenize (cs.dropWhile isWordChar) := by
  unfold tokenize
  rw [List.length_cons]
  simp only [tokenizeF, hw, if_true]
  rw [tokenizeF_eq cs.length (cs.dropWhile isWordChar).length _
    (length_dropWhile_le' _ _) (Nat.le_refl _)]

theorem tokenize_cons_sep {c : Char} (hw : isWordChar c = false) (cs : List Char) :
    tokenize (c :: cs) =
      Chunk.sep (c :: cs.takeWhile (fun x => !isWordChar x)) ::
        tokenize (cs.dropWhile (fun x => !isWordChar x)) := by
  unfold tokenize
  rw [List.length_cons]
  simp only [tokenizeF, hw, Bool.false_eq_true, if_false]
  rw [tokenizeF_eq cs.length (cs.dropWhile (fun x => !isWordChar x)).length _
    (length_dropWhile_le' _ _) (Nat.le_refl _)]

theorem detok_cons (ch : Chunk) (L : List Chunk) :
    detok (ch :: L) = chunkChars ch ++ detok L := rfl

/-- Every chunk produced by `tokenize` is a nonempty single-class run and
the classes alternate. -/
theorem tokenize_WF : ∀ (n : Nat) (cs : List Char), cs.length ≤ n →
    WFc (tokenize cs) := by
  intro n
  induction n with
  | zero =>
    intro cs h
    rw [List.length_eq_zero.mp (Nat.le_zero.mp h)]
    exact ⟨fun ch hch => absurd hch (List.not_mem_nil ch), List.chain'_nil⟩
  | succ n ih =>
    intro cs h
    cases cs with
    | nil => exact ⟨fun ch hch => absurd hch (List.not_mem_nil ch), List.chain'_nil⟩
    | cons c cs' =>
      cases hw : isWordChar c with
      | true =>
        rw [tokenize_cons_word hw]
        have hrec : WFc (tokenize (cs'.dropWhile isWordChar)) :=
          ih _ (Nat.le_trans (length_dropWhile_le' _ _) (Nat.le_of_succ_le_succ h))
        refine ⟨?_, ?_⟩
        · intro ch hch
          rcases List.mem_cons.mp hch with rfl | hm
          · exact ⟨List.cons_ne_nil _ _, by
              intro c' hc'
              rcases List.mem_cons.mp hc' with rfl | hm'
              · exact hw
              · exact List.mem_takeWhile_imp hm'⟩
          · exact hrec.1 ch hm
        · rw [kinds, List.map_cons]
          rw [List.chain'_cons']
          refine ⟨?_, hrec.2⟩
          intro k hk
          cases hr : cs'.dropWhile isWordChar with
          | nil => rw [hr] at hk; cases hk
          | cons d r' =>
            have hd : isWordChar d = false := by
              have h0 := List.head?_dropWhile_not isWordChar cs'
              rw [hr] at h0
              simpa using h0
            rw [hr, tokenize_cons_sep hd] at hk
            simp only [kinds, List.map_cons, List.head?_cons, Option.mem_def,
              Option.some.injEq] at hk
            rw [← hk]
            simp [isWordChunk]
      | false =>
        rw [tokenize_cons_sep hw]
        have hrec : WFc (tokenize (cs'.dropWhile (fun x => !isWordChar x))) :=
          ih _ (Nat.le_trans (length_dropWhile_le' _ _) (Nat.le_of_succ_le_succ h))
        refine ⟨?_, ?_⟩
        · intro ch hch
          rcases List.mem_cons.mp hch with rfl | hm
          · exact ⟨List.cons_ne_nil _ _, by
              intro c' hc'
              rcases List.mem_cons.mp hc' with rfl | hm'
              · exact hw
              · have := List.mem_takeWhile_imp hm'
                simpa using this⟩
          · exact hrec.1 ch hm
        · rw [kinds, List.map_cons]
          rw [List.chain'_cons']
          refine ⟨?_, hrec.2⟩
          intro k hk
          cases hr : cs'.dropWhile (fun x => !isWordChar x) with
          | nil => rw [hr] at hk; cases hk
          | cons d r' =>
            have hd : isWordChar d = true := by
              have h0 := List.head?_dropWhile_not (fun x => !isWordChar x) cs'
              rw [hr] at h0
              simpa using h0
            rw [hr, tokenize_cons_word hd] at hk
            simp only [kinds, List.map_cons, List.head?_cons, Option.mem_def,
              Option.some.injEq] at hk
            rw [← hk]
            simp [isWordChunk]

theorem tokenize_WF' (cs : List Char) : WFc (tokenize cs) :=
  tokenize_WF cs.length cs (Nat.le_refl _)

/-- When the first chunk of `L` is not a word chunk (or `L` is empty), the
text of `L` starts with a non-word character (or is empty), so a word-run
`takeWhile` stops immediately. -/
theorem detok_not_word_head {L : List Chunk}
    (hok : ∀ ch ∈ L, ChunkOK ch)
    (hk : (kinds L).head? = none ∨ (kinds L).head? = some false) :
    (detok L).takeWhile isWordChar = [] ∧
      (detok L).dropWhile isWordChar = detok L := by
  cases L with
  | nil => exact ⟨rfl, rfl⟩
  | cons ch L' =>
    cases ch with
    | word w => simp [kinds, isWordChunk] at hk
    | sep s =>
      obtain ⟨hne, hall⟩ := hok (.sep s) (List.mem_cons_self _ _)
      cases s with
      | nil => exact absurd rfl hne
      | cons d s' =>
        have hd : isWordChar d = false := hall d (List.mem_cons_self _ _)
        rw [detok_cons]
        simp only [chunkChars]
        rw [List.cons_append, List.takeWhile_cons_of_neg (by simp [hd]),
          List.dropWhile_cons_of_neg (by simp [hd])]
        exact ⟨rfl, rfl⟩

/-- Symmetric fact: when the first chunk is a word chunk (or `L` empty),
a separator-run `takeWhile` stops immediately. -/
theorem detok_word_head {L : List Chunk}
    (hok : ∀ ch ∈ L, ChunkOK ch)
    (hk : (kinds L).head? = none ∨ (kinds L).head? = some true) :
    (detok L).takeWhile (fun x => !isWordChar x) = [] ∧
      (detok L).dropWhile (fun x => !isWordChar x) = detok L := by
  cases L with
  | nil => exact ⟨rfl, rfl⟩
  | cons ch L' =>
    cases ch with
    | sep s => simp [kinds, isWordChunk] at hk
    | word w =>
      obtain ⟨hne, hall⟩ := hok (.word w) (List.mem_cons_self _ _)
      cases w with
      | nil => exact absurd rfl hne
      | cons d w' =>
        have hd : isWordChar d = true := hall d (List.mem_cons_self _ _)
        rw [detok_cons]
        simp only [chunkChars]
        rw [List.cons_append, List.takeWhile_cons_of_neg (by simp [hd]),
          List.dropWhile_cons_of_neg (by simp [hd])]
        exact ⟨rfl, rfl⟩

/-- Retokenising the text of a well-formed chunk list gives it back. -/
theorem tokenize_detok : ∀ {L : List Chunk}, WFc L → tokenize (detok L) = L := by
  intro L
  induction L with
  | nil => intro _; rfl
  | cons ch L' ih =>
    intro h
    have hok' : ∀ c ∈ L', ChunkOK c := fun c hc => h.1 c (List.mem_cons_of_mem _ hc)
    have hch' : List.Chain' (fun a b => a ≠ b) (kinds L') := by
      have := h.2
      rw [kinds, List.map_cons, List.chain'_cons'] at this
      exact this.2
    have hhd : ∀ k ∈ (kinds L').head?, isWordChunk ch ≠ k := by
      have := h.2
      rw [kinds, List.map_cons, List.chain'_cons'] at this
      exact this.1
    cases ch with
    | word w =>
      obtain ⟨hne, hall⟩ := h.1 (.word w) (List.mem_cons_self _ _)
      cases w with
      | nil => exact absurd rfl hne
      | cons c w' =>
        have hc : isWordChar c = true := hall c (List.mem_cons_self _ _)
        have hall' : ∀ x ∈ w', isWordChar x = true :=
          fun x hx => hall x (List.mem_cons_of_mem _ hx)
        have hkL' : (kinds L').head? = none ∨ (kinds L').head? = some false := by
          cases hh : (kinds L').head? with
          | none => exact Or.inl rfl
          | some k =>
            have hne' := hhd k (by rw [hh]; rfl)
            cases k with
            | false => exact Or.inr rfl
            | true => exact absurd rfl hne'
        obtain ⟨htk, hdr⟩ := detok_not_word_head hok' hkL'
        rw [detok_cons]
        simp only [chunkChars]
        rw [List.cons_append, tokenize_cons_word hc,
          takeWhile_append_of_all hall', dropWhile_append_of_all hall',
          htk, hdr, List.append_nil, ih ⟨hok', hch'⟩]
    | sep s =>
      obtain ⟨hne, hall⟩ := h.1 (.sep s) (List.mem_cons_self _ _)
      cases s with
      | nil => exact absurd rfl hne
      | cons c s' =>
        have hc : isWordChar c = false := hall c (List.mem_cons_self _ _)
        have hall' : ∀ x ∈ s', (fun x => !isWordChar x) x = true := by
          intro x hx
          simp [hall x (List.mem_cons_of_mem _ hx)]
        have hkL' : (kinds L').head? = none ∨ (kinds L').head? = some true := by
          cases hh : (kinds L').head? with
          | none => exact Or.inl rfl
          | some k =>
            have hne' := hhd k (by rw [hh]; rfl)
            cases k with
            | false => exact absurd rfl hne'
            | true => exact Or.inr rfl
        obtain ⟨htk, hdr⟩ := detok_word_head hok' hkL'
        rw [detok_cons]
        simp only [chunkChars]
        rw [List.cons_append, tokenize_cons_sep hc,
          takeWhile_append_of_all hall', dropWhile_append_of_all hall',
          htk, hdr, List.append_nil, ih ⟨hok', hch'⟩]

theorem kinds_subChunks (p : RulePat) (b : List Char) :
    ∀ L, kinds (subChunks p b L) = kinds L := by
  intro L
  induction L with
  | nil => rfl
  | cons ch L ih =>
    cases ch with
    | word w =>
      simp only [subChunks, kinds, List.map_cons]
      rw [show isWordChunk (if matchTok p L w then Chunk.word b else Chunk.word w) =
        true by split <;> rfl]
      exact congrArg _ ih
    | sep s =>
      simp only [subChunks, kinds, List.map_cons]
      exact congrArg _ ih

theorem ChunkOK_subChunks {p : RulePat} {b : List Char}
    (hb : b ≠ [] ∧ ∀ c ∈ b, isWordChar c = true) :
    ∀ {L}, (∀ ch ∈ L, ChunkOK ch) → ∀ ch ∈ subChunks p b L, ChunkOK ch := by
  intro L
  induction L with
  | nil => intro _ ch hch; cases hch
  | cons c L ih =>
    intro h ch hch
    cases c with
    | word w =>
      rcases List.mem_cons.mp hch with rfl | hm
      · split
        · exact hb
        · exact h (.word w) (List.mem_cons_self _ _)
      · exact ih (fun x hx => h x (List.mem_cons_of_mem _ hx)) ch hm
    | sep s =>
      rcases List.mem_cons.mp hch with rfl | hm
      · exact h (.sep s) (List.mem_cons_self _ _)
      · exact ih (fun x hx => h x (List.mem_cons_of_mem _ hx)) ch hm

theorem WFc_subChunks {p : RulePat} {b : List Char}
    (hb : b ≠ [] ∧ ∀ c ∈ b, isWordChar c = true) {L} (h : WFc L) :
    WFc (subChunks p b L) :=
  ⟨ChunkOK_subChunks hb h.1, by rw [kinds_subChunks]; exact h.2⟩

theorem subChunks_id_of_not_search {p : RulePat} {b : List Char} :
    ∀ {L}, searchChunks p L = false → subChunks p b L = L := by
  intro L
  induction L with
  | nil => intro _; rfl
  | cons ch L ih =>
    intro h
    cases ch with
    | word w =>
      rw [searchChunks, Bool.or_eq_false_iff] at h
      rw [subChunks, if_neg (by simp [h.1]), ih h.2]
    | sep s =>
      rw [searchChunks] at h
      rw [subChunks, ih h]

theorem word_not_pyspace {c : Char} (h : isWordChar c = true) :
    isPySpace c = false := by
  cases hs : isPySpace c with
  | false => rfl
  | true =>
    exfalso
    simp only [isPySpace, Bool.or_eq_true, decide_eq_true_eq] at hs
    rcases hs with ((((h' | h') | h') | h') | h') | h' <;>
      (subst h'; exact absurd h (by decide))

theorem word_not_eq_char {c : Char} (h : isWordChar c = true) : c ≠ '=' := by
  intro h'
  subst h'
  exact absurd h (by decide)

/-- The lookahead test only sees whether whitespace followed by `=` comes
next; word-for-word substitution further right never changes it. -/
theorem eqFollows_congr : ∀ {r r' : List Chunk},
    List.Forall₂ SameShape r r' → eqFollows r = eqFollows r' := by
  intro r r' h
  induction h with
  | nil => rfl
  | cons hab hrest ih =>
    cases hab with
    | sep s =>
      unfold eqFollows
      rw [detok_cons, detok_cons]
      simp only [chunkChars]
      cases hsd : s.dropWhile isPySpace with
      | nil =>
        have hall : ∀ c ∈ s, isPySpace c = true :=
          fun c hc => List.dropWhile_eq_nil_iff.mp hsd c hc
        rw [dropWhile_append_of_all hall, dropWhile_append_of_all hall]
        exact ih
      | cons d s' =>
        rw [dropWhile_append_of_ne (by rw [hsd]; exact List.cons_ne_nil _ _),
          dropWhile_append_of_ne (by rw [hsd]; exact List.cons_ne_nil _ _), hsd]
        rfl
    | word hw1ne hw1all hw2ne hw2all =>
      unfold eqFollows
      rw [detok_cons, detok_cons]
      simp only [chunkChars]
      rename_i w w'
      cases w with
      | nil => exact absurd rfl hw1ne
      | cons c ws =>
        cases w' with
        | nil => exact absurd rfl hw2ne
        | cons c' ws' =>
          have hc : isWordChar c = true := hw1all c (List.mem_cons_self _ _)
          have hc' : isWordChar c' = true := hw2all c' (List.mem_cons_self _ _)
          rw [List.cons_append, List.cons_append,
            List.dropWhile_cons_of_neg (by simp [word_not_pyspace hc]),
            List.dropWhile_cons_of_neg (by simp [word_not_pyspace hc'])]
          simp only [List.head?_cons]
          rw [show (some c == some '=') = false by
              simpa using word_not_eq_char hc,
            show (some c' == some '=') = false by
              simpa using word_not_eq_char hc']

theorem matchTok_congr {p : RulePat} {w : List Char} {r r' : List Chunk}
    (h : List.Forall₂ SameShape r r') : matchTok p r w = matchTok p r' w := by
  cases p with
  | word a => rfl
  | wordNotBeforeEq a =>
    simp only [matchTok]
    rw [eqFollows_congr h]

/-- Every British replacement in the table is a nonempty word. -/
theorem rules_brit_ok : ∀ ru ∈ CONVERSION_RULES,
    ru.2.1.data ≠ [] ∧ ∀ c ∈ ru.2.1.data, isWordChar c = true := by decide

/-- No British replacement in the table equals any rule's American word —
the fact behind idempotence. -/
theorem rules_brit_ne_amer : ∀ ru ∈ CONVERSION_RULES, ∀ ru' ∈ CONVERSION_RULES,
    ru.2.1.data ≠ (amerWord ru'.1).data := by decide

theorem matchTok_brit_false {ru ru' : RulePat × String × String}
    (h1 : ru ∈ CONVERSION_RULES) (h2 : ru' ∈ CONVERSION_RULES)
    (rest : List Chunk) : matchTok ru'.1 rest ru.2.1.data = false := by
  have hne := rules_brit_ne_amer ru h1 ru' h2
  cases hp : ru'.1 with
  | word a =>
    simp only [matchTok]
    rw [hp] at hne
    simpa using hne
  | wordNotBeforeEq a =>
    simp only [matchTok]
    rw [hp] at hne
    rw [show (ru.2.1.data == a.data) = false by simpa using hne]
    rfl

theorem tracks_sameShape {applied : List (RulePat × String × String)}
    (hsub : ∀ x ∈ applied, x ∈ CONVERSION_RULES) :
    ∀ {L L'}, Tracks applied L L' → List.Forall₂ SameShape L L' := by
  intro L L' h
  induction h with
  | nil => exact List.Forall₂.nil
  | sep s h ih => exact List.Forall₂.cons (SameShape.sep s) ih
  | keep hne hall hno h ih =>
    exact List.Forall₂.cons (SameShape.word hne hall hne hall) ih
  | repl ru hru hne hall h ih =>
    have hb := rules_brit_ok ru (hsub ru hru)
    exact List.Forall₂.cons (SameShape.word hne hall hb.1 hb.2) ih

theorem tracks_refl : ∀ {L : List Chunk}, (∀ ch ∈ L, ChunkOK ch) →
    Tracks [] L L := by
  intro L
  induction L with
  | nil => intro _; exact Tracks.nil
  | cons ch L ih =>
    intro h
    have hL : ∀ c ∈ L, ChunkOK c := fun c hc => h c (List.mem_cons_of_mem _ hc)
    cases ch with
    | word w =>
      obtain ⟨hne, hall⟩ := h (.word w) (List.mem_cons_self _ _)
      exact Tracks.keep hne hall (fun ru hru => absurd hru (List.not_mem_nil ru))
        (ih hL)
    | sep s => exact Tracks.sep s (ih hL)

/-- Applying one more rule preserves the tracking relation. -/
theorem tracks_step {applied : List (RulePat × String × String)}
    (hsub : ∀ x ∈ applied, x ∈ CONVERSION_RULES)
    (ru : RulePat × String × String) (hru : ru ∈ CONVERSION_RULES) :
    ∀ {L0 L}, Tracks applied L0 L →
      Tracks (applied ++ [ru]) L0 (subChunks ru.1 ru.2.1.data L) := by
  intro L0 L h
  induction h with
  | nil => exact Tracks.nil
  | sep s h ih => exact Tracks.sep s ih
  | @keep w r r' hne hall hno h ih =>
    have hsh : List.Forall₂ SameShape r r' := tracks_sameShape hsub h
    cases hm : matchTok ru.1 r' w with
    | true =>
      rw [subChunks, if_pos hm]
      exact Tracks.repl ru (List.mem_append_right _ (List.mem_cons_self _ _))
        hne hall ih
    | false =>
      rw [subChunks, if_neg (by simp [hm])]
      refine Tracks.keep hne hall ?_ ih
      intro x hx
      rcases List.mem_append.mp hx with hx' | hx'
      · exact hno x hx'
      · rcases List.mem_cons.mp hx' with rfl | hx''
        · rw [matchTok_congr hsh]
          exact hm
        · exact absurd hx'' (List.not_mem_nil x)
  | @repl w r r' ru' hru' hne hall h ih =>
    rw [subChunks, if_neg (by
      simp [matchTok_brit_false (hsub ru' hru') hru r'])]
    exact Tracks.repl ru' (List.mem_append_left _ hru') hne hall ih

/-- Folding a list of rules over the chunks extends the tracking relation. -/
theorem tracks_fold : ∀ (RS : List (RulePat × String × String))
    {applied L0 L},
    (∀ x ∈ applied, x ∈ CONVERSION_RULES) →
    (∀ x ∈ RS, x ∈ CONVERSION_RULES) →
    Tracks applied L0 L →
    Tracks (applied ++ RS) L0
      (RS.foldl (fun L r => subChunks r.1 r.2.1.data L) L) := by
  intro RS
  induction RS with
  | nil =>
    intro applied L0 L hsub _ h
    rw [List.append_nil]
    exact h
  | cons r RS ih =>
    intro applied L0 L hsub hRS h
    have hstep := tracks_step hsub r (hRS r (List.mem_cons_self _ _)) h
    have hsub' : ∀ x ∈ applied ++ [r], x ∈ CONVERSION_RULES := by
      intro x hx
      rcases List.mem_append.mp hx with hx' | hx'
      · exact hsub x hx'
      · rcases List.mem_cons.mp hx' with rfl | hx''
        · exact hRS x (List.mem_cons_self _ _)
        · exact absurd hx'' (List.not_mem_nil x)
    have := ih hsub' (fun x hx => hRS x (List.mem_cons_of_mem _ hx)) hstep
    rwa [List.append_assoc, List.singleton_append] at this

/-- After all rules have been applied, no rule matches anywhere. -/
theorem tracks_nomatch : ∀ {L0 Lf},
    Tracks CONVERSION_RULES L0 Lf →
    ∀ ru ∈ CONVERSION_RULES, searchChunks ru.1 Lf = false := by
  intro L0 Lf ht
  induction ht with
  | nil => intro ru _; rfl
  | sep s h ih =>
    intro ru hru
    rw [searchChunks]
    exact ih ru hru
  | @keep w r r' hne hall hno h ih =>
    intro ru hru
    rw [searchChunks, Bool.or_eq_false_iff]
    refine ⟨?_, ih ru hru⟩
    rw [← matchTok_congr (tracks_sameShape (fun x hx => hx) h)]
    exact hno ru hru
  | @repl w r r' ru' hru' hne hall h ih =>
    intro ru hru
    rw [searchChunks, Bool.or_eq_false_iff]
    exact ⟨matchTok_brit_false hru' hru r', ih ru hru⟩

/-- The string-level rule fold of `fixContent` computes, at the chunk
level, the unconditional fold of `subChunks`: when a rule does not match,
`re.sub` is the identity anyway. -/
theorem strFold_tokenize (filename : String) (line_num : Nat) :
    ∀ (RS : List (RulePat × String × String)),
      (∀ r ∈ RS, r ∈ CONVERSION_RULES) →
      ∀ (s : String) (chs : List String),
        tokenize ((RS.foldl
          (fun acc r =>
            if searchRule r.1 acc.1 then
              (subRule r.1 r.2.1 acc.1,
               acc.2 ++ [mkChange filename line_num r.2.2 (amerWord r.1) r.2.1])
            else acc)
          (s, chs)).1).data =
        RS.foldl (fun L r => subChunks r.1 r.2.1.data L) (tokenize s.data) := by
  intro RS
  induction RS with
  | nil => intro _ s chs; rfl
  | cons r RS ih =>
    intro hRS s chs
    have hr : r ∈ CONVERSION_RULES := hRS r (List.mem_cons_self _ _)
    have hRS' : ∀ x ∈ RS, x ∈ CONVERSION_RULES :=
      fun x hx => hRS x (List.mem_cons_of_mem _ hx)
    rw [List.foldl_cons, List.foldl_cons]
    cases hsearch : searchRule r.1 s with
    | true =>
      rw [if_pos rfl]
      have hkey : tokenize (subRule r.1 r.2.1 s).data =
          subChunks r.1 r.2.1.data (tokenize s.data) := by
        show tokenize (detok (subChunks r.1 r.2.1.data (tokenize s.data))) = _
        exact tokenize_detok (WFc_subChunks (rules_brit_ok r hr)
          (tokenize_WF' s.data))
      rw [ih hRS' (subRule r.1 r.2.1 s) _, hkey]
    | false =>
      rw [if_neg (by simp [hsearch])]
      rw [ih hRS' s chs]
      rw [subChunks_id_of_not_search hsearch]

/-- After one pass of `fixContent`, no rule of the table matches the
resulting content. -/
theorem fixContent_no_match (filename : String) (line_num : Nat) (s : String) :
    ∀ ru ∈ CONVERSION_RULES,
      searchRule ru.1 (fixContent filename line_num s).1 = false := by
  intro ru hru
  unfold searchRule
  unfold fixContent
  rw [strFold_tokenize filename line_num CONVERSION_RULES (fun r hr => hr) s []]
  have ht : Tracks CONVERSION_RULES (tokenize s.data)
      (CONVERSION_RULES.foldl (fun L r => subChunks r.1 r.2.1.data L)
        (tokenize s.data)) := by
    have := @tracks_fold CONVERSION_RULES [] (tokenize s.data) (tokenize s.data)
      (fun x hx => absurd hx (List.not_mem_nil x)) (fun x hx => hx)
      (tracks_refl (tokenize_WF' s.data).1)
    rwa [List.nil_append] at this
  exact tracks_nomatch ht ru hru

/-- A rule fold over content no rule matches changes nothing and appends no
records. -/
theorem foldl_no_search (filename : String) (line_num : Nat) :
    ∀ (RS : List (RulePat × String × String)) (t : String) (chs : List String),
      (∀ r ∈ RS, searchRule r.1 t = false) →
      RS.foldl
        (fun acc r =>
          if searchRule r.1 acc.1 then
            (subRule r.1 r.2.1 acc.1,
             acc.2 ++ [mkChange filename line_num r.2.2 (amerWord r.1) r.2.1])
          else acc)
        (t, chs) = (t, chs) := by
  intro RS
  induction RS with
  | nil => intro t chs _; rfl
  | cons r RS ih =>
    intro t chs h
    rw [List.foldl_cons, if_neg (by simp [h r (List.mem_cons_self _ _)])]
    exact ih t chs (fun r' hr' => h r' (List.mem_cons_of_mem _ hr'))

/-- C3: the rewriter is idempotent — applying the full rule table to the
output of a first application produces no further changes and no change
records, because no rule's replacement text is matched by any rule's
American pattern. -/
theorem c3_idempotent (filename1 filename2 : String) (n1 n2 : Nat)
    (content : String) :
    fixContent filename2 n2 (fixContent filename1 n1 content).1 =
      ((fixContent filename1 n1 content).1, []) := by
  unfold fixContent
  exact foldl_no_search filename2 n2 CONVERSION_RULES _ []
    (fun r hr => fixContent_no_match filename1 n1 content r hr)

end BbcFixer
